import Mathlib

/-!
Shallow embedding of the NazaraUtils dynamically-sized bitset
(`include/NazaraUtils/Bitset.hpp`) and of the word-level bit-scan leaf
primitive `Nz::FindFirstBit` exercised by `tests/src/AlgorithmTest.cpp`.

The source tree holds only the class declarations (`Bitset.hpp`) and the
algorithm tests; the implementation file (`Bitset.inl`, `Algorithm.hpp`) is
absent. Every operation below is therefore modelled from the specification
(`spec.md`), as documented on each definition, with the behaviour of the leaf
primitives additionally pinned by the static assertions in
`tests/src/AlgorithmTest.cpp`.

Blocks are the default `Block = UInt32`: natural numbers kept below `2 ^ 32`.
Bit `0` of a bitset is the least-significant bit of block `0` (spec section 1,
non-goals: "bit 0 is defined as the least-significant bit of block 0").
-/

namespace Nz

/-- Modelled from the spec: the word-level "find first set bit" leaf primitive
`Nz::FindFirstBit` (implementation `Algorithm.hpp` is not under `src/`); its
behaviour is pinned by `tests/src/AlgorithmTest.cpp`: `FindFirstBit(0) == 0`,
`FindFirstBit(0b00110101) == 1`, `FindFirstBit(0b00110100) == 3`, and
`FindFirstBit(T(1) << i) == i + 1`, i.e. it returns the 1-based position of
the lowest set bit and `0` for an all-zero word. The first argument is fuel
bounding the recursion depth; `x` halves at each step, so fuel `x` suffices. -/
def FindFirstBitAux : Nat → Nat → Nat
  | 0, _ => 0
  | fuel + 1, x => if x = 0 then 0 else if x % 2 = 1 then 1 else FindFirstBitAux fuel (x / 2) + 1

/-- Modelled from the spec: `Nz::FindFirstBit` (see `FindFirstBitAux`). -/
def FindFirstBit (x : Nat) : Nat := FindFirstBitAux x x

/-- Modelled from the spec: the population-count leaf primitive `Nz::CountBits`
(implementation not under `src/`), pinned by `tests/src/AlgorithmTest.cpp`:
`CountBits(65) == 2`, `CountBits(0) == 0`, one per set bit. Fuel as in
`FindFirstBitAux`. -/
def CountBitsAux : Nat → Nat → Nat
  | 0, _ => 0
  | fuel + 1, x => if x = 0 then 0 else x % 2 + CountBitsAux fuel (x / 2)

/-- Modelled from the spec: `Nz::CountBits` (see `CountBitsAux`). -/
def CountBits (x : Nat) : Nat := CountBitsAux x x

/-- The bitset of `Bitset.hpp`: an ordered sequence of blocks `m_blocks` and a
logical bit count `m_bitCount` (`Bitset.hpp` lines 140-141). -/
structure Bitset where
  m_blocks : List Nat
  m_bitCount : Nat
deriving DecidableEq

namespace Bitset

/-- `Bitset::bitsPerBlock` for the default `Block = UInt32` (`Bitset.hpp` line 118). -/
def bitsPerBlock : Nat := 32

/-- `Bitset::npos = std::numeric_limits<std::size_t>::max()` (`Bitset.hpp` line 119),
for a 64-bit `std::size_t`. -/
def npos : Nat := 2 ^ 64 - 1

/-- Modelled from the spec (section 4.1): `ComputeBlockCount(bitCount)` computes the
minimum number of blocks needed, `ceil(bitCount / bitsPerBlock)`. -/
def ComputeBlockCount (bitCount : Nat) : Nat := (bitCount + bitsPerBlock - 1) / bitsPerBlock

/-- Modelled from the spec (section 4.1): `GetBlockIndex(bit) = bit / bitsPerBlock`. -/
def GetBlockIndex (bit : Nat) : Nat := bit / bitsPerBlock

/-- Modelled from the spec (section 4.1): `GetBitIndex(bit) = bit % bitsPerBlock`. -/
def GetBitIndex (bit : Nat) : Nat := bit % bitsPerBlock

/-- `GetSize()`: the logical bit count. -/
def GetSize (b : Bitset) : Nat := b.m_bitCount

/-- `GetBlockCount()`: the current number of blocks (spec section 4.1). -/
def GetBlockCount (b : Bitset) : Nat := b.m_blocks.length

/-- `GetBlock(i)`: one storage word (spec section 4.1); reads `0` out of range. -/
def GetBlock (b : Bitset) (i : Nat) : Nat := b.m_blocks.getD i 0

/-- Modelled from the spec (section 4.2): `Test(bit)` reads the bit at `bit`,
which lives at bit `GetBitIndex(bit)` of block `GetBlockIndex(bit)`. The C++
contract requires `bit < GetSize()`; the model reads `0` out of range. -/
def Test (b : Bitset) (bit : Nat) : Bool :=
  Nat.testBit (b.GetBlock (GetBlockIndex bit)) (GetBitIndex bit)

/-- Modelled from the spec (section 4.2): `UnboundedTest` returns `false` for
indices `>= GetSize()`. -/
def UnboundedTest (b : Bitset) (bit : Nat) : Bool :=
  if bit < b.GetSize then b.Test bit else false

/-- The logical numeric value held by a block list: block `i` contributes its
value scaled by `2 ^ (bitsPerBlock * i)` (bit 0 = least-significant bit of
block 0). Model-internal bridge between blocks and `Nat` bit arithmetic. -/
def natOfBlocks : List Nat → Nat
  | [] => 0
  | blk :: rest => blk + 2 ^ bitsPerBlock * natOfBlocks rest

/-- The logical numeric value of a bitset's storage. -/
def val (b : Bitset) : Nat := natOfBlocks b.m_blocks

/-- Cuts a numeric value into `k` blocks, least-significant block first.
Model-internal inverse of `natOfBlocks`. -/
def blocksOfNat : Nat → Nat → List Nat
  | 0, _ => []
  | k + 1, v => v % 2 ^ bitsPerBlock :: blocksOfNat k (v / 2 ^ bitsPerBlock)

/-- Value of a list of bits, least-significant first. Model-internal helper for
the string conversions, `Reverse`, and the memory unpacking. -/
def bitsToNat : List Bool → Nat
  | [] => 0
  | bit :: rest => (if bit then 1 else 0) + 2 * bitsToNat rest

/-- Modelled from the spec (sections 3 and 4.6): the normalized bitset of size
`n` holding the low `n` bits of the value `v` — exactly `ComputeBlockCount n`
blocks, extra bits cleared (`ResetExtraBits`). With `n = BitCount<T>()` this is
the integer constructor `Bitset(T value)`: "`BitCount<T>()` bits are set
directly from the value's bit pattern". -/
def ofNat (n v : Nat) : Bitset :=
  ⟨blocksOfNat (ComputeBlockCount n) (v % 2 ^ n), n⟩

/-- The storage invariant of spec section 3: `blocks.len() == ceil(bitCount /
bitsPerBlock)`, every block fits the block width, and all bits at index
`>= bitCount` ("extra bits") are zero. The bound `i < length * bitsPerBlock`
keeps the condition decidable; bits past the storage read `0` anyway. -/
def Valid (b : Bitset) : Prop :=
  b.m_blocks.length = ComputeBlockCount b.m_bitCount ∧
  (∀ blk ∈ b.m_blocks, blk < 2 ^ bitsPerBlock) ∧
  (∀ i < b.m_blocks.length * bitsPerBlock, b.m_bitCount ≤ i → b.Test i = false)

instance (b : Bitset) : Decidable b.Valid := by
  unfold Valid; infer_instance

/-- Modelled from the spec (sections 4.2 and 4.7): `Set(bit, val)` writes one
bit through its block and single-bit mask: OR with the mask to set, AND with
the complemented mask to clear. Contract: `bit < GetSize()`. -/
def Set (b : Bitset) (bit : Nat) (val : Bool) : Bitset :=
  let mask : Nat := 2 ^ GetBitIndex bit
  let blk := b.GetBlock (GetBlockIndex bit)
  let newBlk := if val then blk ||| mask else blk &&& ((2 ^ bitsPerBlock - 1) ^^^ mask)
  { b with m_blocks := b.m_blocks.set (GetBlockIndex bit) newBlk }

/-- Modelled from the spec (section 4.2): `Reset(bit)` clears one bit. -/
def Reset (b : Bitset) (bit : Nat) : Bitset := b.Set bit false

/-- Modelled from the spec (section 4.3, `operator~` / `Flip`): flips every bit
of the logical range, extra bits re-cleared. -/
def Flip (b : Bitset) : Bitset :=
  ofNat b.m_bitCount ((2 ^ b.m_bitCount - 1) ^^^ b.val)

/-- Modelled from the spec (section 4.3): `PerformsAND(a, b)` resizes the
receiver to `max(a.size, b.size)` and combines blockwise, a missing high bit
taken as `0`. -/
def PerformsAND (a b : Bitset) : Bitset :=
  ofNat (max a.GetSize b.GetSize) (a.val &&& b.val)

/-- Modelled from the spec (section 4.3): `PerformsOR(a, b)`, sized
`max(a.size, b.size)`, missing high bits taken as `0`. -/
def PerformsOR (a b : Bitset) : Bitset :=
  ofNat (max a.GetSize b.GetSize) (a.val ||| b.val)

/-- Modelled from the spec (section 4.3): `PerformsXOR(a, b)`, sized
`max(a.size, b.size)`, missing high bits taken as `0`. -/
def PerformsXOR (a b : Bitset) : Bitset :=
  ofNat (max a.GetSize b.GetSize) (a.val ^^^ b.val)

/-- Modelled from the spec (section 4.3): `PerformsNOT(a)` is the bitwise
complement of `a`, sized identically to `a`, extra bits re-cleared. -/
def PerformsNOT (a : Bitset) : Bitset :=
  ofNat a.GetSize ((2 ^ a.GetSize - 1) ^^^ a.val)

/-- Modelled from the spec (section 4.5): `ShiftLeft(pos)` moves every bit to
an index higher by `pos` within the current size; bits shifted past the
boundary are discarded, vacated bits become `0`, extra bits re-cleared. -/
def ShiftLeft (b : Bitset) (pos : Nat) : Bitset :=
  ofNat b.m_bitCount (b.val <<< pos)

/-- Modelled from the spec (section 4.5): `ShiftRight(pos)` moves every bit to
an index lower by `pos`; bits shifted below index `0` are discarded, vacated
high bits become `0`. -/
def ShiftRight (b : Bitset) (pos : Nat) : Bitset :=
  ofNat b.m_bitCount (b.val >>> pos)

/-- Modelled from the spec (sections 3 and 4.1): `Resize(newSize, defaultVal)`
grows or shrinks the bit count, filling newly exposed bits with `defaultVal`
and re-clearing extra bits. -/
def Resize (b : Bitset) (newSize : Nat) (defaultVal : Bool) : Bitset :=
  if defaultVal ∧ b.m_bitCount < newSize then
    ofNat newSize (b.val ||| ((2 ^ newSize - 1) ^^^ (2 ^ b.m_bitCount - 1)))
  else
    ofNat newSize b.val

/-- Modelled from the spec (section 4.5): `Reverse()` reverses bit order across
the whole logical range: bit `i` of the result is bit `size - 1 - i` of the
source. -/
def Reverse (b : Bitset) : Bitset :=
  ofNat b.m_bitCount
    (Bitset.bitsToNat ((List.range b.m_bitCount).map (fun i => b.Test (b.m_bitCount - 1 - i))))

/-- Modelled from the spec (section 4.6): `AppendBits(bits, bitCount)` appends
the `bitCount` low bits of `bits` to the end of the bitset, growing it. -/
def AppendBits (b : Bitset) (bits bitCount : Nat) : Bitset :=
  ofNat (b.m_bitCount + bitCount) (b.val ||| ((bits % 2 ^ bitCount) <<< b.m_bitCount))

/-- Modelled from the spec (section 4.2): `UnboundedSet` transparently grows
the bitset (via `Resize`, zero-filling) to accommodate the index, then writes. -/
def UnboundedSet (b : Bitset) (bit : Nat) (val : Bool) : Bitset :=
  if bit < b.GetSize then b.Set bit val
  else (b.Resize (bit + 1) false).Set bit val

/-- Modelled from the spec (section 4.2): `UnboundedReset` grows to accommodate
the index (via `Resize`), then clears the bit. -/
def UnboundedReset (b : Bitset) (bit : Nat) : Bitset :=
  if bit < b.GetSize then b.Reset bit
  else (b.Resize (bit + 1) false).Reset bit

/-- Modelled from the spec (section 2): `Count()` sums the per-block population
counts of the storage. -/
def Count (b : Bitset) : Nat := (b.m_blocks.map CountBits).sum

/-- Modelled from the spec (section 4.4): block scan of `FindFirstFrom` —
advance past zero blocks in bulk, then apply the 1-based leaf `FindFirstBit`
to the first nonzero block and subtract one; `npos` when every block is zero.
`base` is the block index of the list head. -/
def findFirstAux : List Nat → Nat → Nat
  | [], _ => npos
  | blk :: rest, base =>
    if blk = 0 then findFirstAux rest (base + 1)
    else base * bitsPerBlock + (FindFirstBit blk - 1)

/-- Modelled from the spec (section 4.4): `FindFirstFrom(blockIndex)` scans
blocks from `blockIndex` forward. -/
def FindFirstFrom (b : Bitset) (blockIndex : Nat) : Nat :=
  findFirstAux (b.m_blocks.drop blockIndex) blockIndex

/-- Modelled from the spec (section 4.4): `FindFirst()` returns the lowest index
with a set bit, or `npos` if none. -/
def FindFirst (b : Bitset) : Nat := b.FindFirstFrom 0

/-- Modelled from the spec (section 4.4): `FindNext(bit)` returns the lowest
set-bit index strictly greater than `bit`, or `npos`: mask off bits at or
below the search origin in the origin's block, apply the leaf primitive, and
if the block is exhausted advance to the next nonzero block. -/
def FindNext (b : Bitset) (bit : Nat) : Nat :=
  let nextIdx := bit + 1
  if b.m_bitCount ≤ nextIdx then npos
  else
    let blockIdx := GetBlockIndex nextIdx
    let masked := (b.GetBlock blockIdx >>> GetBitIndex nextIdx) <<< GetBitIndex nextIdx
    if masked ≠ 0 then blockIdx * bitsPerBlock + (FindFirstBit masked - 1)
    else b.FindFirstFrom (blockIdx + 1)

/-- Modelled from the spec (section 4.6): the string constructor
`Bitset(const char* bits)`. The string length becomes the bit count; the
convention fixed by the model (matching the integer constructor's bit order)
is that the rightmost character maps to bit `0`, i.e. the string reads as the
binary numeral of the held value. -/
def ofString (s : List Char) : Bitset :=
  ofNat s.length (bitsToNat (s.reverse.map (fun c => c == '1')))

/-- Modelled from the spec (section 4.6): `ToString()`, inverse of string
construction: character `'1'` for a set bit, leftmost character = highest bit. -/
def ToString (b : Bitset) : List Char :=
  ((List.range b.m_bitCount).map (fun i => if b.Test i then '1' else '0')).reverse

/-- Modelled from the spec (section 4.6): `To<T>()` reconstructs an integral
value from the low `BitCount<T>()` bits and fails (contract violation) if the
bitset holds more significant set bits than fit in `T`. `t = BitCount<T>()`. -/
def To (b : Bitset) (t : Nat) : Option Nat :=
  if b.val < 2 ^ t then some b.val else none

/-- Modelled from the spec (sections 4.6 and 6): `Write(sequence, bitCount)`
packs `bitCount` bits of the bitset's content into the memory region starting
at the sequence's bit offset and returns the updated sequence. Memory is
modelled bit-addressed (`Nat → Bool`); a `PointerSequence` is its bit-offset
cursor. -/
def Write (b : Bitset) (mem : Nat → Bool) (off : Nat) (bitCount : Nat) :
    (Nat → Bool) × Nat :=
  (fun i => if off ≤ i ∧ i < off + bitCount then b.Test (i - off) else mem i,
    off + bitCount)

/-- Modelled from the spec (sections 4.6 and 6): `FromPointer(ptr, bitCount,
sequence)` unpacks `bitCount` bits starting at the given bit offset into a new
bitset and reports the resulting cursor. Exact inverse of `Write`. -/
def FromPointer (mem : Nat → Bool) (off : Nat) (bitCount : Nat) : Bitset × Nat :=
  (ofNat bitCount (bitsToNat ((List.range bitCount).map (fun i => mem (off + i)))),
    off + bitCount)

/-- Modelled from the spec (section 4.8): `operator==` compares logical content
over resized-to-max-length storage: blockwise equality with the shorter
operand zero-extended. -/
def beq (a b : Bitset) : Bool :=
  (List.range (max a.GetBlockCount b.GetBlockCount)).all
    (fun i => a.GetBlock i == b.GetBlock i)

/-! ### Bridge lemmas between block storage and `Nat` bit arithmetic -/

theorem bitsPerBlock_pos : 0 < bitsPerBlock := by decide

theorem blocksOfNat_length (k v : Nat) : (blocksOfNat k v).length = k := by
  induction k generalizing v with
  | zero => rfl
  | succ k ih => simp [blocksOfNat, ih]

theorem mem_blocksOfNat_lt {blk k v : Nat} (h : blk ∈ blocksOfNat k v) :
    blk < 2 ^ bitsPerBlock := by
  induction k generalizing v with
  | zero => simp [blocksOfNat] at h
  | succ k ih =>
    simp only [blocksOfNat, List.mem_cons] at h
    rcases h with h | h
    · exact h ▸ Nat.mod_lt _ (Nat.pos_pow_of_pos _ (by decide))
    · exact ih h

theorem blocksOfNat_getD (k v j : Nat) :
    (blocksOfNat k v).getD j 0 =
      if j < k then v / 2 ^ (bitsPerBlock * j) % 2 ^ bitsPerBlock else 0 := by
  induction k generalizing v j with
  | zero => simp [blocksOfNat]
  | succ k ih =>
    cases j with
    | zero => simp [blocksOfNat]
    | succ j =>
      simp only [blocksOfNat, List.getD_cons_succ, ih, Nat.succ_lt_succ_iff]
      have : v / 2 ^ bitsPerBlock / 2 ^ (bitsPerBlock * j) = v / 2 ^ (bitsPerBlock * (j + 1)) := by
        rw [Nat.div_div_eq_div_mul, ← pow_add, Nat.mul_succ, Nat.add_comm]
      rw [this]

theorem natOfBlocks_blocksOfNat (k v : Nat) :
    natOfBlocks (blocksOfNat k v) = v % 2 ^ (bitsPerBlock * k) := by
  induction k generalizing v with
  | zero => simp [blocksOfNat, natOfBlocks, Nat.mod_one]
  | succ k ih =>
    simp only [blocksOfNat, natOfBlocks, ih]
    rw [Nat.mul_succ, Nat.add_comm (bitsPerBlock * k), pow_add, Nat.mod_mul]

theorem blocksOfNat_natOfBlocks {L : List Nat}
    (hwf : ∀ blk ∈ L, blk < 2 ^ bitsPerBlock) :
    blocksOfNat L.length (natOfBlocks L) = L := by
  induction L with
  | nil => rfl
  | cons blk rest ih =>
    have hblk : blk < 2 ^ bitsPerBlock := hwf blk (List.mem_cons_self _ _)
    have h1 : (blk + 2 ^ bitsPerBlock * natOfBlocks rest) % 2 ^ bitsPerBlock = blk := by
      rw [Nat.add_mul_mod_self_left, Nat.mod_eq_of_lt hblk]
    have h2 : (blk + 2 ^ bitsPerBlock * natOfBlocks rest) / 2 ^ bitsPerBlock =
        natOfBlocks rest := by
      rw [Nat.add_mul_div_left _ _ (Nat.pos_pow_of_pos _ (by decide)),
        Nat.div_eq_of_lt hblk, Nat.zero_add]
    simp only [List.length_cons, blocksOfNat, natOfBlocks, h1, h2,
      ih (fun b hb => hwf b (List.mem_cons_of_mem _ hb))]

theorem testBit_natOfBlocks {L : List Nat}
    (hwf : ∀ blk ∈ L, blk < 2 ^ bitsPerBlock) (i : Nat) :
    Nat.testBit (natOfBlocks L) i =
      Nat.testBit (L.getD (i / bitsPerBlock) 0) (i % bitsPerBlock) := by
  induction L generalizing i with
  | nil => simp [natOfBlocks]
  | cons blk rest ih =>
    have hblk : blk < 2 ^ bitsPerBlock := hwf blk (List.mem_cons_self _ _)
    have hrest : ∀ b ∈ rest, b < 2 ^ bitsPerBlock :=
      fun b hb => hwf b (List.mem_cons_of_mem _ hb)
    by_cases hi : i < bitsPerBlock
    · have hdiv : i / bitsPerBlock = 0 := Nat.div_eq_of_lt hi
      have hmod : i % bitsPerBlock = i := Nat.mod_eq_of_lt hi
      have hmodblk : (blk + 2 ^ bitsPerBlock * natOfBlocks rest) % 2 ^ bitsPerBlock = blk := by
        rw [Nat.add_mul_mod_self_left, Nat.mod_eq_of_lt hblk]
      simp only [natOfBlocks, hdiv, hmod, List.getD_cons_zero]
      conv_rhs => rw [← hmodblk]
      rw [Nat.testBit_mod_two_pow]
      simp [hi]
    · push_neg at hi
      have hdiv : i / bitsPerBlock = (i - bitsPerBlock) / bitsPerBlock + 1 := by
        simp only [bitsPerBlock] at *; omega
      have hmod : i % bitsPerBlock = (i - bitsPerBlock) % bitsPerBlock := by
        simp only [bitsPerBlock] at *; omega
      have hdivblk : (blk + 2 ^ bitsPerBlock * natOfBlocks rest) / 2 ^ bitsPerBlock =
          natOfBlocks rest := by
        rw [Nat.add_mul_div_left _ _ (Nat.pos_pow_of_pos _ (by decide)),
          Nat.div_eq_of_lt hblk, Nat.zero_add]
      have hsplit : i = bitsPerBlock + (i - bitsPerBlock) := by omega
      calc Nat.testBit (natOfBlocks (blk :: rest)) i
      _ = Nat.testBit (natOfBlocks (blk :: rest)) (bitsPerBlock + (i - bitsPerBlock)) := by
          rw [← hsplit]
      _ = Nat.testBit (natOfBlocks (blk :: rest) >>> bitsPerBlock) (i - bitsPerBlock) := by
          rw [Nat.testBit_shiftRight]
      _ = Nat.testBit (natOfBlocks rest) (i - bitsPerBlock) := by
          rw [Nat.shiftRight_eq_div_pow]
          simp only [natOfBlocks]
          rw [hdivblk]
      _ = Nat.testBit (rest.getD ((i - bitsPerBlock) / bitsPerBlock) 0)
            ((i - bitsPerBlock) % bitsPerBlock) := ih hrest _
      _ = _ := by rw [hdiv, hmod, List.getD_cons_succ]

/-- A number all of whose bits from `n` on are clear is below `2 ^ n`. -/
theorem lt_two_pow_of_high_testBit_false {x n : Nat}
    (h : ∀ i, n ≤ i → Nat.testBit x i = false) : x < 2 ^ n := by
  have hx : x = x % 2 ^ n := by
    apply Nat.eq_of_testBit_eq
    intro i
    rw [Nat.testBit_mod_two_pow]
    by_cases hi : i < n
    · simp [hi]
    · simp only [hi, decide_False, Bool.false_and]
      exact h i (by omega)
  rw [hx]
  exact Nat.mod_lt _ (Nat.pos_pow_of_pos _ (by decide))

theorem Test_eq_testBit_val {b : Bitset}
    (hwf : ∀ blk ∈ b.m_blocks, blk < 2 ^ bitsPerBlock) (i : Nat) :
    b.Test i = Nat.testBit b.val i := by
  rw [val, testBit_natOfBlocks hwf]
  rfl

theorem wf_of_valid {b : Bitset} (h : b.Valid) :
    ∀ blk ∈ b.m_blocks, blk < 2 ^ bitsPerBlock := h.2.1

/-- Under the storage invariant, every bit at index `>= bitCount` reads zero. -/
theorem Test_eq_false_of_le {b : Bitset} (h : b.Valid) {i : Nat}
    (hi : b.m_bitCount ≤ i) : b.Test i = false := by
  by_cases hlen : i < b.m_blocks.length * bitsPerBlock
  · exact h.2.2 i hlen hi
  · push_neg at hlen
    have : b.m_blocks.length ≤ i / bitsPerBlock := by
      rw [Nat.le_div_iff_mul_le bitsPerBlock_pos]
      omega
    rw [Test, GetBlock, List.getD_eq_getElem?_getD, List.getElem?_eq_none (by simpa using this)]
    simp

theorem val_lt_of_valid {b : Bitset} (h : b.Valid) : b.val < 2 ^ b.m_bitCount := by
  apply lt_two_pow_of_high_testBit_false
  intro i hi
  rw [← Test_eq_testBit_val (wf_of_valid h)]
  exact Test_eq_false_of_le h hi

theorem testBit_val_eq_false_of_le {b : Bitset} (h : b.Valid) {i : Nat}
    (hi : b.m_bitCount ≤ i) : Nat.testBit b.val i = false := by
  rw [← Test_eq_testBit_val (wf_of_valid h)]
  exact Test_eq_false_of_le h hi

theorem le_bitsPerBlock_mul_computeBlockCount (n : Nat) :
    n ≤ bitsPerBlock * ComputeBlockCount n := by
  simp only [ComputeBlockCount, bitsPerBlock]
  omega

theorem val_ofNat (n v : Nat) : (ofNat n v).val = v % 2 ^ n := by
  rw [ofNat, val, natOfBlocks_blocksOfNat]
  exact Nat.mod_eq_of_lt (lt_of_lt_of_le
    (Nat.mod_lt _ (Nat.pos_pow_of_pos _ (by decide)))
    (pow_le_pow_right (by decide) (le_bitsPerBlock_mul_computeBlockCount n)))

theorem size_ofNat (n v : Nat) : (ofNat n v).GetSize = n := rfl

theorem wf_ofNat (n v : Nat) : ∀ blk ∈ (ofNat n v).m_blocks, blk < 2 ^ bitsPerBlock :=
  fun _ h => mem_blocksOfNat_lt h

theorem Test_ofNat (n v i : Nat) : (ofNat n v).Test i = Nat.testBit (v % 2 ^ n) i := by
  rw [Test_eq_testBit_val (wf_ofNat n v), val_ofNat]

theorem Valid_ofNat (n v : Nat) : (ofNat n v).Valid := by
  refine ⟨blocksOfNat_length _ _, wf_ofNat n v, fun i _ hi => ?_⟩
  have hn : n ≤ i := hi
  rw [Test_ofNat, Nat.testBit_mod_two_pow]
  simp [show ¬ i < n from Nat.not_lt.mpr hn]

theorem ofNat_val_eq_self {b : Bitset} (h : b.Valid) : ofNat b.m_bitCount b.val = b := by
  have hmod : b.val % 2 ^ b.m_bitCount = b.val := Nat.mod_eq_of_lt (val_lt_of_valid h)
  have hblocks : blocksOfNat (ComputeBlockCount b.m_bitCount) b.val = b.m_blocks := by
    simp only [val]
    rw [← h.1, blocksOfNat_natOfBlocks h.2.1]
  rw [ofNat, hmod, hblocks]

/-- Under the storage invariant, `UnboundedTest` agrees with the bit of the
logical value at every index. -/
theorem UnboundedTest_eq_testBit_val {b : Bitset} (h : b.Valid) (i : Nat) :
    b.UnboundedTest i = Nat.testBit b.val i := by
  rw [UnboundedTest]
  by_cases hi : i < b.GetSize
  · simp only [hi, if_true, Test_eq_testBit_val (wf_of_valid h)]
  · simp only [hi, if_false]
    exact (testBit_val_eq_false_of_le h (by simpa [GetSize] using hi)).symm

/-! ### Lemmas on `bitsToNat` and bit lists -/

theorem bitsToNat_lt (l : List Bool) : bitsToNat l < 2 ^ l.length := by
  induction l with
  | nil => simp [bitsToNat]
  | cons bit rest ih =>
    simp only [bitsToNat, List.length_cons, pow_succ]
    cases bit <;> simp <;> omega

theorem testBit_bitsToNat (l : List Bool) (i : Nat) :
    Nat.testBit (bitsToNat l) i = l.getD i false := by
  induction l generalizing i with
  | nil => simp [bitsToNat]
  | cons bit rest ih =>
    cases i with
    | zero =>
      simp only [bitsToNat, List.getD_cons_zero, Nat.testBit_zero]
      cases bit <;> simp <;> omega
    | succ i =>
      rw [Nat.testBit_add_one]
      have : ((if bit then 1 else 0) + 2 * bitsToNat rest) / 2 = bitsToNat rest := by
        cases bit <;> simp <;> omega
      simp only [bitsToNat, this, ih, List.getD_cons_succ]

/-- Reading back the per-index bits of a valid bitset rebuilds its value. -/
theorem bitsToNat_map_Test {b : Bitset} (h : b.Valid) :
    bitsToNat ((List.range b.m_bitCount).map (fun i => b.Test i)) = b.val := by
  apply Nat.eq_of_testBit_eq
  intro i
  rw [testBit_bitsToNat]
  by_cases hi : i < b.m_bitCount
  · rw [List.getD_eq_getElem _ _ (by simpa using hi)]
    simp only [List.getElem_map, List.getElem_range]
    exact Test_eq_testBit_val (wf_of_valid h) i
  · rw [List.getD_eq_default _ _ (by simpa using Nat.le_of_not_lt hi)]
    exact (testBit_val_eq_false_of_le h (Nat.le_of_not_lt hi)).symm

/-! ### `Set` writes exactly one bit -/

theorem GetBitIndex_lt (bit : Nat) : GetBitIndex bit < bitsPerBlock :=
  Nat.mod_lt _ bitsPerBlock_pos

theorem Set_block_lt {blk p : Nat} (hblk : blk < 2 ^ bitsPerBlock)
    (hp : p < bitsPerBlock) (v : Bool) :
    (if v then blk ||| 2 ^ p else blk &&& ((2 ^ bitsPerBlock - 1) ^^^ 2 ^ p)) <
      2 ^ bitsPerBlock := by
  apply lt_two_pow_of_high_testBit_false
  intro i hi
  have hblki : Nat.testBit blk i = false :=
    Nat.testBit_lt_two_pow (lt_of_lt_of_le hblk (pow_le_pow_right (by decide) hi))
  cases v with
  | true =>
    rw [if_pos rfl, Nat.testBit_or, hblki, Bool.false_or]
    exact Nat.testBit_two_pow_of_ne (by omega)
  | false =>
    rw [if_neg Bool.false_ne_true, Nat.testBit_and, hblki, Bool.false_and]

theorem GetBlock_lt {b : Bitset} (hwf : ∀ blk ∈ b.m_blocks, blk < 2 ^ bitsPerBlock)
    (i : Nat) : b.GetBlock i < 2 ^ bitsPerBlock := by
  rw [GetBlock]
  by_cases hi : i < b.m_blocks.length
  · rw [List.getD_eq_getElem _ _ hi]
    exact hwf _ (List.getElem_mem hi)
  · rw [List.getD_eq_default _ _ (Nat.le_of_not_lt hi)]
    exact Nat.pos_pow_of_pos _ (by decide)

theorem Set_m_blocks (b : Bitset) (bit : Nat) (v : Bool) :
    (b.Set bit v).m_blocks = b.m_blocks.set (GetBlockIndex bit)
      (if v then b.GetBlock (GetBlockIndex bit) ||| 2 ^ GetBitIndex bit
       else b.GetBlock (GetBlockIndex bit) &&& ((2 ^ bitsPerBlock - 1) ^^^ 2 ^ GetBitIndex bit)) :=
  rfl

theorem Set_m_bitCount (b : Bitset) (bit : Nat) (v : Bool) :
    (b.Set bit v).m_bitCount = b.m_bitCount := rfl

theorem Test_Set {b : Bitset} (hwf : ∀ blk ∈ b.m_blocks, blk < 2 ^ bitsPerBlock)
    {bit : Nat} (hbit : GetBlockIndex bit < b.m_blocks.length) (v : Bool) (i : Nat) :
    (b.Set bit v).Test i = if i = bit then v else b.Test i := by
  have h32 : bitsPerBlock = 32 := rfl
  simp only [Test, GetBlock, Set_m_blocks]
  by_cases hdiv : GetBlockIndex i = GetBlockIndex bit
  · rw [hdiv, List.getD_eq_getElem?_getD, List.getElem?_set_self hbit, Option.getD_some]
    have hp := GetBitIndex_lt i
    by_cases heq : i = bit
    · subst heq
      cases v with
      | true => simp [Nat.testBit_or, Nat.testBit_two_pow_self]
      | false =>
        simp [Nat.testBit_and, Nat.testBit_xor, Nat.testBit_two_pow_sub_one,
          Nat.testBit_two_pow_self, hp]
    · have hne : GetBitIndex i ≠ GetBitIndex bit := by
        simp only [GetBlockIndex, GetBitIndex, h32] at hdiv heq ⊢
        omega
      cases v with
      | true =>
        simp [Nat.testBit_or, Nat.testBit_two_pow_of_ne (Ne.symm hne), heq, GetBlock]
      | false =>
        simp [Nat.testBit_and, Nat.testBit_xor, Nat.testBit_two_pow_sub_one,
          Nat.testBit_two_pow_of_ne (Ne.symm hne), heq, hp, GetBlock]
  · have hne : i ≠ bit := fun h => hdiv (by rw [h])
    simp only [hne, if_false]
    rw [List.getD_eq_getElem?_getD, List.getElem?_set_ne (Ne.symm hdiv),
      ← List.getD_eq_getElem?_getD]

theorem Valid_Set {b : Bitset} (h : b.Valid) {bit : Nat} (hbit : bit < b.GetSize)
    (v : Bool) : (b.Set bit v).Valid := by
  have h32 : bitsPerBlock = 32 := rfl
  have hbit' : bit < b.m_bitCount := hbit
  have hbi : GetBlockIndex bit < b.m_blocks.length := by
    rw [h.1]
    simp only [GetBlockIndex, ComputeBlockCount, h32]
    simp only [GetSize] at hbit
    omega
  refine ⟨?_, ?_, ?_⟩
  · rw [Set_m_blocks, Set_m_bitCount, List.length_set]
    exact h.1
  · intro blk hmem
    rw [Set_m_blocks] at hmem
    rcases List.mem_or_eq_of_mem_set hmem with hold | hnew
    · exact h.2.1 blk hold
    · rw [hnew]
      exact Set_block_lt (GetBlock_lt h.2.1 _) (GetBitIndex_lt bit) v
  · intro i hilen hi
    have hi' : b.m_bitCount ≤ i := hi
    rw [Set_m_blocks, List.length_set] at hilen
    rw [Test_Set h.2.1 hbi v i, if_neg (by omega)]
    exact h.2.2 i hilen hi'

/-! ### The 1-based leaf primitive on one-bit words -/

theorem FindFirstBitAux_two_pow {fuel m : Nat} (h : 2 ^ m ≤ fuel) :
    FindFirstBitAux fuel (2 ^ m) = m + 1 := by
  induction m generalizing fuel with
  | zero =>
    cases fuel with
    | zero => simp at h
    | succ f => simp [FindFirstBitAux]
  | succ m ih =>
    cases fuel with
    | zero =>
      have hpos : 0 < 2 ^ (m + 1) := Nat.pos_pow_of_pos _ (by decide)
      omega
    | succ f =>
      have h1 : 2 ^ (m + 1) ≠ 0 := (Nat.pos_pow_of_pos _ (by decide)).ne'
      have h2 : 2 ^ (m + 1) % 2 = 0 := by rw [pow_succ, Nat.mul_mod_left]
      have h3 : 2 ^ (m + 1) / 2 = 2 ^ m := by rw [pow_succ, Nat.mul_div_cancel _ (by decide)]
      have hf : 2 ^ m ≤ f := by
        have hm : 1 ≤ 2 ^ m := Nat.pos_pow_of_pos _ (by decide)
        have h4 : 2 ^ (m + 1) = 2 * 2 ^ m := by rw [pow_succ]; ring
        omega
      simp [FindFirstBitAux, h1, h2, h3, ih hf]

theorem FindFirstBit_two_pow (m : Nat) : FindFirstBit (2 ^ m) = m + 1 :=
  FindFirstBitAux_two_pow le_rfl

/-! ### The block scan -/

theorem findFirstAux_eq_npos {L : List Nat} (h : ∀ blk ∈ L, blk = 0) (base : Nat) :
    findFirstAux L base = npos := by
  induction L generalizing base with
  | nil => rfl
  | cons blk rest ih =>
    have hblk : blk = 0 := h blk (List.mem_cons_self _ _)
    simp only [findFirstAux, hblk, if_true]
    exact ih (fun b hb => h b (List.mem_cons_of_mem _ hb)) (base + 1)

theorem findFirstAux_two_pow {L : List Nat} {K m : Nat} :
    ∀ base : Nat, K < L.length → (∀ j < K, L.getD j 0 = 0) → L.getD K 0 = 2 ^ m →
    findFirstAux L base = (base + K) * bitsPerBlock + m := by
  induction L generalizing K with
  | nil => intro base hK; simp at hK
  | cons blk rest ih =>
    intro base hK hzero hKval
    cases K with
    | zero =>
      simp only [List.getD_cons_zero] at hKval
      have hne : blk ≠ 0 := by
        rw [hKval]; exact (Nat.pos_pow_of_pos _ (by decide)).ne'
      show (if blk = 0 then findFirstAux rest (base + 1)
        else base * bitsPerBlock + (FindFirstBit blk - 1)) = (base + 0) * bitsPerBlock + m
      rw [if_neg hne, hKval, FindFirstBit_two_pow]
      simp
    | succ K =>
      have hblk : blk = 0 := by
        have := hzero 0 (Nat.succ_pos K)
        simpa using this
      simp only [findFirstAux, hblk, if_true]
      have := ih (K := K) (base + 1) (by simpa using hK)
        (fun j hj => by simpa using hzero (j + 1) (Nat.succ_lt_succ hj))
        (by simpa using hKval)
      rw [this]
      ring_nf

theorem Valid_Resize (b : Bitset) (n : Nat) (dv : Bool) : (b.Resize n dv).Valid := by
  rw [Resize]; split <;> exact Valid_ofNat _ _

theorem size_Resize (b : Bitset) (n : Nat) (dv : Bool) : (b.Resize n dv).GetSize = n := by
  rw [Resize]; split <;> rfl

theorem Valid_UnboundedSet {b : Bitset} (h : b.Valid) (bit : Nat) (v : Bool) :
    (b.UnboundedSet bit v).Valid := by
  by_cases hbit : bit < b.GetSize
  · rw [UnboundedSet, if_pos hbit]
    exact Valid_Set h hbit v
  · rw [UnboundedSet, if_neg hbit]
    exact Valid_Set (Valid_Resize b (bit + 1) false)
      (by rw [size_Resize]; omega) v

theorem Valid_UnboundedReset {b : Bitset} (h : b.Valid) (bit : Nat) :
    (b.UnboundedReset bit).Valid := by
  by_cases hbit : bit < b.GetSize
  · rw [UnboundedReset, if_pos hbit]
    exact Valid_Set h hbit false
  · rw [UnboundedReset, if_neg hbit]
    exact Valid_Set (Valid_Resize b (bit + 1) false)
      (by rw [size_Resize]; omega) false

/-! ### Claim theorems -/

/-- C1: every mutating operation (`Set`, `Reset`, `Flip`, `PerformsAND/OR/XOR/NOT`,
`ShiftLeft`, `ShiftRight`, `Resize`, `Reverse`, `AppendBits`, `UnboundedSet`,
`UnboundedReset`) preserves the storage invariant: the number of blocks equals
`ceil(bitCount / bitsPerBlock)` and every bit at index `>= bitCount` within the
storage is zero (`Valid`). -/
theorem mutating_ops_preserve_invariant (b a c : Bitset) (bit pos n k : Nat)
    (v dv : Bool) (hb : b.Valid) (ha : a.Valid) (hc : c.Valid)
    (hbit : bit < b.GetSize) :
    (b.Set bit v).Valid ∧ (b.Reset bit).Valid ∧ b.Flip.Valid ∧
    (PerformsAND a c).Valid ∧ (PerformsOR a c).Valid ∧ (PerformsXOR a c).Valid ∧
    (PerformsNOT a).Valid ∧ (b.ShiftLeft pos).Valid ∧ (b.ShiftRight pos).Valid ∧
    (b.Resize n dv).Valid ∧ b.Reverse.Valid ∧ (b.AppendBits n k).Valid ∧
    (b.UnboundedSet k v).Valid ∧ (b.UnboundedReset k).Valid :=
  ⟨Valid_Set hb hbit v, Valid_Set hb hbit false, Valid_ofNat _ _,
    Valid_ofNat _ _, Valid_ofNat _ _, Valid_ofNat _ _,
    Valid_ofNat _ _, Valid_ofNat _ _, Valid_ofNat _ _,
    Valid_Resize b n dv, Valid_ofNat _ _, Valid_ofNat _ _,
    Valid_UnboundedSet hb k v, Valid_UnboundedReset hb k⟩

/-- Witness for C1 at concrete inputs. -/
theorem mutating_ops_preserve_invariant_witness :
    ((ofNat 5 19).Set 2 true).Valid ∧ ((ofNat 5 19).Reset 2).Valid ∧
    (ofNat 5 19).Flip.Valid ∧
    (PerformsAND (ofNat 3 5) (ofNat 40 (2 ^ 39 + 1))).Valid ∧
    (PerformsOR (ofNat 3 5) (ofNat 40 (2 ^ 39 + 1))).Valid ∧
    (PerformsXOR (ofNat 3 5) (ofNat 40 (2 ^ 39 + 1))).Valid ∧
    (PerformsNOT (ofNat 3 5)).Valid ∧
    ((ofNat 5 19).ShiftLeft 7).Valid ∧ ((ofNat 5 19).ShiftRight 7).Valid ∧
    ((ofNat 5 19).Resize 9 false).Valid ∧ (ofNat 5 19).Reverse.Valid ∧
    ((ofNat 5 19).AppendBits 9 6).Valid ∧
    ((ofNat 5 19).UnboundedSet 6 true).Valid ∧
    ((ofNat 5 19).UnboundedReset 6).Valid :=
  mutating_ops_preserve_invariant (ofNat 5 19) (ofNat 3 5) (ofNat 40 (2 ^ 39 + 1))
    2 7 9 6 true false (by decide) (by decide) (by decide) (by decide)

/-- C3 counterexample: the spec's example values for `Bitset("00110101")` fail —
`FindFirst()` is `0`-based and returns `0` (bit `0`, the rightmost character, is
set), not `1`; the spec's `1` and `3` are the values of the 1-based leaf
primitive `FindFirstBit` on the same word (`AlgorithmTest.cpp` lines 10-11). -/
theorem string_example_counterexample :
    ¬ ((ofString ['0', '0', '1', '1', '0', '1', '0', '1']).FindFirst = 1 ∧
       (ofString ['0', '0', '1', '1', '0', '1', '0', '1']).FindNext 1 = 3 ∧
       (ofString ['0', '0', '1', '1', '0', '1', '0', '1']).Count = 4 ∧
       (ofString ['0', '0', '1', '1', '0', '1', '0', '1']).ToString =
         ['0', '0', '1', '1', '0', '1', '0', '1']) := by
  decide

/-- C3 amended: for the bitset built from `"00110101"`, `FindFirst()` returns `0`,
`FindNext(1)` returns `2`, `Count()` returns `4`, and `ToString()` returns
`"00110101"`. -/
theorem string_example_amended :
    (ofString ['0', '0', '1', '1', '0', '1', '0', '1']).FindFirst = 0 ∧
    (ofString ['0', '0', '1', '1', '0', '1', '0', '1']).FindNext 1 = 2 ∧
    (ofString ['0', '0', '1', '1', '0', '1', '0', '1']).Count = 4 ∧
    (ofString ['0', '0', '1', '1', '0', '1', '0', '1']).ToString =
      ['0', '0', '1', '1', '0', '1', '0', '1'] := by
  decide

theorem map_range_getD {α β : Type} (l : List α) (d : α) (f : α → β) :
    (List.range l.length).map (fun i => f (l.getD i d)) = l.map f := by
  apply List.ext_getElem
  · simp
  · intro i h1 h2
    simp only [List.getElem_map, List.getElem_range]
    rw [List.getD_eq_getElem l d (by simpa using h2)]

theorem beq_refl (b : Bitset) : beq b b = true := by
  simp [beq, List.all_eq_true]

theorem size_ofString (s : List Char) : (ofString s).m_bitCount = s.length := rfl

/-- Structural second half of the string round-trip: rebuilding a valid bitset
from its own rendering gives it back, block for block. -/
theorem ofString_ToString {b : Bitset} (hb : b.Valid) : ofString b.ToString = b := by
  have hTlen : b.ToString.length = b.m_bitCount := by simp [ToString]
  have hTrev : b.ToString.reverse =
      (List.range b.m_bitCount).map (fun i => if b.Test i then '1' else '0') := by
    rw [ToString, List.reverse_reverse]
  rw [ofString, hTlen, hTrev, List.map_map]
  have hmap : (List.range b.m_bitCount).map
      ((fun c => c == '1') ∘ fun i => if b.Test i then '1' else '0') =
      (List.range b.m_bitCount).map (fun i => b.Test i) := by
    apply List.map_congr_left
    intro i _
    by_cases htest : b.Test i <;> simp [htest]
  rw [hmap, bitsToNat_map_Test hb, ofNat_val_eq_self hb]

/-- C2: string conversion round-trips both ways — `ToString(Bitset(s)) == s` for
every string of `'0'`/`'1'` characters, and `Bitset(ToString(b)) == b` for every
(invariant-respecting) bitset `b`. -/
theorem string_roundtrip (s : List Char) (b : Bitset)
    (hs : ∀ c ∈ s, c = '0' ∨ c = '1') (hb : b.Valid) :
    (ofString s).ToString = s ∧ beq (ofString b.ToString) b = true := by
  constructor
  · have hlen : (s.reverse.map (fun c => c == '1')).length = s.length := by simp
    have hTest : ∀ i, (ofString s).Test i =
        (s.reverse.map (fun c => c == '1')).getD i false := by
      intro i
      rw [ofString, Test_ofNat,
        Nat.mod_eq_of_lt (hlen ▸ bitsToNat_lt (s.reverse.map (fun c => c == '1'))),
        testBit_bitsToNat]
    rw [ToString, size_ofString]
    simp only [hTest]
    rw [← hlen, map_range_getD (s.reverse.map (fun c => c == '1')) false
      (fun t => if t then '1' else '0'), List.map_map]
    have hmap : s.reverse.map ((fun t => if t then '1' else '0') ∘ fun c => c == '1') =
        s.reverse.map id := by
      apply List.map_congr_left
      intro c hc
      rcases hs c (List.mem_reverse.mp hc) with h0 | h1 <;> subst c <;> rfl
    rw [hmap, List.map_id, List.reverse_reverse]
  · rw [ofString_ToString hb]
    exact beq_refl b

/-- Witness for C2 with the string "101" and a 3-bit bitset. -/
theorem string_roundtrip_witness :
    (ofString ['1', '0', '1']).ToString = ['1', '0', '1'] ∧
    beq (ofString (ofNat 3 5).ToString) (ofNat 3 5) = true :=
  string_roundtrip ['1', '0', '1'] (ofNat 3 5) (by decide) (by decide)

/-- C4: the integer conversion round-trips — for every width `t = BitCount<T>()`
and value `x` of the unsigned type (`x < 2 ^ t`), `Bitset(x).To<T>()`
recovers `x`. -/
theorem integer_roundtrip (t x : Nat) (hx : x < 2 ^ t) :
    (ofNat t x).To t = some x := by
  rw [To, val_ofNat, Nat.mod_eq_of_lt hx, if_pos hx]

/-- Witness for C4: an 8-bit value round-trips. -/
theorem integer_roundtrip_witness : (ofNat 8 202).To 8 = some 202 :=
  integer_roundtrip 8 202 (by decide)

/-- C6: `PerformsAND/OR/XOR` on operands of possibly different sizes leave the
receiver with size `max(a.GetSize(), b.GetSize())`, and every bit `i` below
that size is the boolean operation of the operands' bits at `i`, a bit beyond
an operand's own length taken as `0` (`UnboundedTest`). -/
theorem performs_bool_algebra (a b : Bitset) (ha : a.Valid) (hb : b.Valid) :
    (PerformsAND a b).GetSize = max a.GetSize b.GetSize ∧
    (PerformsOR a b).GetSize = max a.GetSize b.GetSize ∧
    (PerformsXOR a b).GetSize = max a.GetSize b.GetSize ∧
    ∀ i < max a.GetSize b.GetSize,
      (PerformsAND a b).Test i = (a.UnboundedTest i && b.UnboundedTest i) ∧
      (PerformsOR a b).Test i = (a.UnboundedTest i || b.UnboundedTest i) ∧
      (PerformsXOR a b).Test i = (a.UnboundedTest i).xor (b.UnboundedTest i) := by
  refine ⟨rfl, rfl, rfl, fun i hi => ⟨?_, ?_, ?_⟩⟩ <;>
    rw [UnboundedTest_eq_testBit_val ha, UnboundedTest_eq_testBit_val hb]
  · rw [PerformsAND, Test_ofNat, Nat.testBit_mod_two_pow, Nat.testBit_and]
    simp [hi]
  · rw [PerformsOR, Test_ofNat, Nat.testBit_mod_two_pow, Nat.testBit_or]
    simp [hi]
  · rw [PerformsXOR, Test_ofNat, Nat.testBit_mod_two_pow, Nat.testBit_xor]
    simp [hi, Bool.xor]

/-- Witness for C6 on operands of sizes 3 and 40. -/
theorem performs_bool_algebra_witness :
    (PerformsAND (ofNat 3 5) (ofNat 40 (2 ^ 39 + 1))).GetSize =
      max (ofNat 3 5).GetSize (ofNat 40 (2 ^ 39 + 1)).GetSize ∧
    (PerformsOR (ofNat 3 5) (ofNat 40 (2 ^ 39 + 1))).GetSize =
      max (ofNat 3 5).GetSize (ofNat 40 (2 ^ 39 + 1)).GetSize ∧
    (PerformsXOR (ofNat 3 5) (ofNat 40 (2 ^ 39 + 1))).GetSize =
      max (ofNat 3 5).GetSize (ofNat 40 (2 ^ 39 + 1)).GetSize ∧
    ∀ i < max (ofNat 3 5).GetSize (ofNat 40 (2 ^ 39 + 1)).GetSize,
      (PerformsAND (ofNat 3 5) (ofNat 40 (2 ^ 39 + 1))).Test i =
        ((ofNat 3 5).UnboundedTest i && (ofNat 40 (2 ^ 39 + 1)).UnboundedTest i) ∧
      (PerformsOR (ofNat 3 5) (ofNat 40 (2 ^ 39 + 1))).Test i =
        ((ofNat 3 5).UnboundedTest i || (ofNat 40 (2 ^ 39 + 1)).UnboundedTest i) ∧
      (PerformsXOR (ofNat 3 5) (ofNat 40 (2 ^ 39 + 1))).Test i =
        ((ofNat 3 5).UnboundedTest i).xor ((ofNat 40 (2 ^ 39 + 1)).UnboundedTest i) :=
  performs_bool_algebra (ofNat 3 5) (ofNat 40 (2 ^ 39 + 1)) (by decide) (by decide)

/-- C8: shifting left then right by `k <= GetSize()` clears the top `k` bits and
leaves the rest unchanged. -/
theorem shift_left_right_clears_top (b : Bitset) (k : Nat) (hb : b.Valid)
    (hk : k ≤ b.GetSize) :
    ((b.ShiftLeft k).ShiftRight k).GetSize = b.GetSize ∧
    (∀ i, b.GetSize - k ≤ i → ((b.ShiftLeft k).ShiftRight k).Test i = false) ∧
    (∀ i, i < b.GetSize - k → ((b.ShiftLeft k).ShiftRight k).Test i = b.Test i) := by
  have hk' : k ≤ b.m_bitCount := hk
  have hsl : (b.ShiftLeft k).m_bitCount = b.m_bitCount := rfl
  have hv : (b.ShiftLeft k).val = (b.val <<< k) % 2 ^ b.m_bitCount := val_ofNat _ _
  have hkey : ∀ i, ((b.ShiftLeft k).ShiftRight k).Test i =
      (decide (i < b.m_bitCount - k) && b.Test i) := by
    intro i
    rw [ShiftRight, hsl, hv, Test_ofNat, Nat.testBit_mod_two_pow,
      Nat.testBit_shiftRight, Nat.testBit_mod_two_pow, Nat.testBit_shiftLeft,
      Test_eq_testBit_val (wf_of_valid hb)]
    have h1 : k + i - k = i := by omega
    rw [h1]
    by_cases h2 : i < b.m_bitCount - k
    · have ha1 : i < b.m_bitCount := by omega
      have ha2 : k + i < b.m_bitCount := by omega
      have ha3 : k ≤ k + i := by omega
      simp [ha1, ha2, ha3, h2]
    · have ha2 : ¬ (k + i < b.m_bitCount) := by omega
      simp [ha2, h2]
  refine ⟨rfl, fun i hi => ?_, fun i hi => ?_⟩
  · rw [hkey]
    have : ¬ (i < b.m_bitCount - k) := by
      simp only [GetSize] at hi; omega
    simp [this]
  · rw [hkey]
    have h3 : i < b.m_bitCount - k := hi
    simp [h3]

theorem Write_mem (b : Bitset) (mem : Nat → Bool) (off n i : Nat) :
    (b.Write mem off n).1 i =
      if off ≤ i ∧ i < off + n then b.Test (i - off) else mem i := rfl

theorem Write_cursor (b : Bitset) (mem : Nat → Bool) (off n : Nat) :
    (b.Write mem off n).2 = off + n := rfl

theorem FromPointer_cursor (mem : Nat → Bool) (off n : Nat) :
    (FromPointer mem off n).2 = off + n := rfl

/-- Unpacking reads back exactly the bits the memory holds at the cursor. -/
theorem FromPointer_readback {b : Bitset} (hb : b.Valid) (mem : Nat → Bool)
    (off : Nat) (hmem : ∀ i < b.m_bitCount, mem (off + i) = b.Test i) :
    (FromPointer mem off b.m_bitCount).1 = b := by
  have hmap : (List.range b.m_bitCount).map (fun i => mem (off + i)) =
      (List.range b.m_bitCount).map (fun i => b.Test i) :=
    List.map_congr_left (fun i hi => hmem i (List.mem_range.mp hi))
  show ofNat b.m_bitCount
      (bitsToNat ((List.range b.m_bitCount).map (fun i => mem (off + i)))) = b
  rw [hmap, bitsToNat_map_Test hb, ofNat_val_eq_self hb]

/-- C5: memory packing round-trips — writing a bitset with `Write` and
reconstructing it with `FromPointer` at the same cursor and bit count yields
the bitset back, and chaining two `Write` calls through the returned
`PointerSequence` then unpacking with two matching `FromPointer` calls
reproduces both original bitsets. -/
theorem write_fromPointer_roundtrip (b1 b2 : Bitset) (mem : Nat → Bool)
    (off : Nat) (h1 : b1.Valid) (h2 : b2.Valid) :
    (FromPointer (b1.Write mem off b1.GetSize).1 off b1.GetSize).1 = b1 ∧
    (FromPointer
      (b2.Write (b1.Write mem off b1.GetSize).1 (b1.Write mem off b1.GetSize).2
        b2.GetSize).1 off b1.GetSize).1 = b1 ∧
    (FromPointer
      (b2.Write (b1.Write mem off b1.GetSize).1 (b1.Write mem off b1.GetSize).2
        b2.GetSize).1
      (FromPointer
        (b2.Write (b1.Write mem off b1.GetSize).1 (b1.Write mem off b1.GetSize).2
          b2.GetSize).1 off b1.GetSize).2 b2.GetSize).1 = b2 := by
  simp only [GetSize]
  have hm1 : ∀ i < b1.m_bitCount,
      (b1.Write mem off b1.m_bitCount).1 (off + i) = b1.Test i := by
    intro i hi
    rw [Write_mem, if_pos ⟨by omega, by omega⟩, Nat.add_sub_cancel_left]
  have hm2 : ∀ i < b1.m_bitCount,
      (b2.Write (b1.Write mem off b1.m_bitCount).1 (b1.Write mem off b1.m_bitCount).2
        b2.m_bitCount).1 (off + i) = b1.Test i := by
    intro i hi
    rw [Write_mem, Write_cursor, if_neg (by omega)]
    exact hm1 i hi
  have hm3 : ∀ i < b2.m_bitCount,
      (b2.Write (b1.Write mem off b1.m_bitCount).1 (b1.Write mem off b1.m_bitCount).2
        b2.m_bitCount).1 (off + b1.m_bitCount + i) = b2.Test i := by
    intro i hi
    rw [Write_mem, Write_cursor, if_pos ⟨by omega, by omega⟩]
    congr 1
    omega
  refine ⟨FromPointer_readback h1 _ off hm1, FromPointer_readback h1 _ off hm2, ?_⟩
  rw [FromPointer_cursor]
  exact FromPointer_readback h2 _ (off + b1.m_bitCount) hm3

/-- Witness for C5 with two small bitsets packed into an all-zero memory at
offset 3. -/
theorem write_fromPointer_roundtrip_witness :
    (FromPointer ((ofNat 5 19).Write (fun _ => false) 3 (ofNat 5 19).GetSize).1 3
      (ofNat 5 19).GetSize).1 = ofNat 5 19 ∧
    (FromPointer
      ((ofNat 40 (2 ^ 39 + 1)).Write
        ((ofNat 5 19).Write (fun _ => false) 3 (ofNat 5 19).GetSize).1
        ((ofNat 5 19).Write (fun _ => false) 3 (ofNat 5 19).GetSize).2
        (ofNat 40 (2 ^ 39 + 1)).GetSize).1 3 (ofNat 5 19).GetSize).1 = ofNat 5 19 ∧
    (FromPointer
      ((ofNat 40 (2 ^ 39 + 1)).Write
        ((ofNat 5 19).Write (fun _ => false) 3 (ofNat 5 19).GetSize).1
        ((ofNat 5 19).Write (fun _ => false) 3 (ofNat 5 19).GetSize).2
        (ofNat 40 (2 ^ 39 + 1)).GetSize).1
      (FromPointer
        ((ofNat 40 (2 ^ 39 + 1)).Write
          ((ofNat 5 19).Write (fun _ => false) 3 (ofNat 5 19).GetSize).1
          ((ofNat 5 19).Write (fun _ => false) 3 (ofNat 5 19).GetSize).2
          (ofNat 40 (2 ^ 39 + 1)).GetSize).1 3 (ofNat 5 19).GetSize).2
      (ofNat 40 (2 ^ 39 + 1)).GetSize).1 = ofNat 40 (2 ^ 39 + 1) :=
  write_fromPointer_roundtrip (ofNat 5 19) (ofNat 40 (2 ^ 39 + 1))
    (fun _ => false) 3 (by decide) (by decide)

theorem Test_block_bit (b : Bitset) (j m : Nat) (hm : m < bitsPerBlock) :
    Nat.testBit (b.GetBlock j) m = b.Test (bitsPerBlock * j + m) := by
  have h1 : (bitsPerBlock * j + m) / bitsPerBlock = j := by
    simp only [bitsPerBlock] at *; omega
  have h2 : (bitsPerBlock * j + m) % bitsPerBlock = m := by
    simp only [bitsPerBlock] at *; omega
  simp only [Test, GetBlockIndex, GetBitIndex, h1, h2]

theorem GetBlock_eq_zero_of_all_false {b : Bitset} (hb : b.Valid)
    (hzero : ∀ i < b.GetSize, b.Test i = false) (j : Nat) : b.GetBlock j = 0 := by
  apply Nat.eq_of_testBit_eq
  intro m
  rw [Nat.zero_testBit]
  by_cases hm : m < bitsPerBlock
  · rw [Test_block_bit b j m hm]
    by_cases hlt : bitsPerBlock * j + m < b.GetSize
    · exact hzero _ hlt
    · exact Test_eq_false_of_le hb (Nat.le_of_not_lt hlt)
  · exact Nat.testBit_lt_two_pow (lt_of_lt_of_le (GetBlock_lt (wf_of_valid hb) j)
      (pow_le_pow_right (by decide) (Nat.le_of_not_lt hm)))

/-- C7: `FindFirst()` on an all-zero bitset of any size returns `npos`; on a
bitset with exactly one set bit at index `k` it returns `k`. -/
theorem findFirst_spec :
    (∀ b : Bitset, b.Valid → (∀ i < b.GetSize, b.Test i = false) →
      b.FindFirst = npos) ∧
    (∀ (b : Bitset) (k : Nat), b.Valid → b.Test k = true →
      (∀ i < b.GetSize, i ≠ k → b.Test i = false) → b.FindFirst = k) := by
  constructor
  · intro b hb hzero
    rw [FindFirst, FindFirstFrom, List.drop_zero]
    apply findFirstAux_eq_npos
    intro blk hmem
    rcases List.mem_iff_getElem.mp hmem with ⟨j, hj, rfl⟩
    have hgb := GetBlock_eq_zero_of_all_false hb hzero j
    rwa [GetBlock, List.getD_eq_getElem _ _ hj] at hgb
  · intro b k hb htest huniq
    have h32 : bitsPerBlock = 32 := rfl
    have hksize : k < b.GetSize := by
      by_contra hge
      rw [Test_eq_false_of_le hb (Nat.le_of_not_lt hge)] at htest
      exact Bool.false_ne_true htest
    have hsz : b.m_bitCount ≤ bitsPerBlock * b.m_blocks.length := by
      rw [hb.1]; exact le_bitsPerBlock_mul_computeBlockCount _
    have hKlen : k / bitsPerBlock < b.m_blocks.length := by
      have hk' : k < b.m_bitCount := hksize
      simp only [bitsPerBlock] at *
      omega
    have hKval : b.m_blocks.getD (k / bitsPerBlock) 0 = 2 ^ (k % bitsPerBlock) := by
      show b.GetBlock (k / bitsPerBlock) = 2 ^ (k % bitsPerBlock)
      apply Nat.eq_of_testBit_eq
      intro m
      by_cases hm : m < bitsPerBlock
      · rw [Test_block_bit b _ m hm, Nat.testBit_two_pow]
        by_cases heq : bitsPerBlock * (k / bitsPerBlock) + m = k
        · have hmod : k % bitsPerBlock = m := by
            simp only [bitsPerBlock] at *; omega
          rw [heq, htest, hmod]
          simp
        · have hne : k % bitsPerBlock ≠ m := by
            intro hmod
            exact heq (by simp only [bitsPerBlock] at *; omega)
          rw [decide_eq_false hne]
          by_cases hlt : bitsPerBlock * (k / bitsPerBlock) + m < b.GetSize
          · exact huniq _ hlt heq
          · exact Test_eq_false_of_le hb (Nat.le_of_not_lt hlt)
      · rw [Nat.testBit_lt_two_pow (lt_of_lt_of_le (GetBlock_lt (wf_of_valid hb) _)
          (pow_le_pow_right (by decide) (Nat.le_of_not_lt hm)))]
        have hne : k % bitsPerBlock ≠ m := by
          have := Nat.mod_lt k bitsPerBlock_pos
          omega
        rw [Nat.testBit_two_pow, decide_eq_false hne]
    have hzero : ∀ j < k / bitsPerBlock, b.m_blocks.getD j 0 = 0 := by
      intro j hj
      show b.GetBlock j = 0
      apply Nat.eq_of_testBit_eq
      intro m
      rw [Nat.zero_testBit]
      by_cases hm : m < bitsPerBlock
      · rw [Test_block_bit b j m hm]
        have hlt : bitsPerBlock * j + m < k := by
          simp only [bitsPerBlock] at *; omega
        exact huniq _ (by omega) (by omega)
      · exact Nat.testBit_lt_two_pow (lt_of_lt_of_le (GetBlock_lt (wf_of_valid hb) j)
          (pow_le_pow_right (by decide) (Nat.le_of_not_lt hm)))
    rw [FindFirst, FindFirstFrom, List.drop_zero,
      findFirstAux_two_pow 0 hKlen hzero hKval]
    simp only [bitsPerBlock] at *
    omega

/-- Witness for C7: a 5-bit bitset with only bit 2 set. -/
theorem findFirst_spec_witness : (ofNat 5 4).FindFirst = 2 :=
  findFirst_spec.2 (ofNat 5 4) 2 (by decide) (by decide) (by decide)

/-- Witness for C8 with a 16-bit bitset shifted by 5. -/
theorem shift_left_right_clears_top_witness :
    (((ofNat 16 40000).ShiftLeft 5).ShiftRight 5).GetSize = (ofNat 16 40000).GetSize ∧
    (∀ i, (ofNat 16 40000).GetSize - 5 ≤ i →
      (((ofNat 16 40000).ShiftLeft 5).ShiftRight 5).Test i = false) ∧
    (∀ i, i < (ofNat 16 40000).GetSize - 5 →
      (((ofNat 16 40000).ShiftLeft 5).ShiftRight 5).Test i = (ofNat 16 40000).Test i) :=
  shift_left_right_clears_top (ofNat 16 40000) 5 (by decide) (by decide)

theorem GetBlock_eq_zero_of_le {b : Bitset} {j : Nat} (hj : b.GetBlockCount ≤ j) :
    b.GetBlock j = 0 := by
  rw [GetBlock, List.getD_eq_default _ _ hj]

theorem beq_true_iff_blocks {a b : Bitset} :
    beq a b = true ↔
      ∀ j < max a.GetBlockCount b.GetBlockCount, a.GetBlock j = b.GetBlock j := by
  simp [beq, List.all_eq_true, List.mem_range]

/-- Under the invariant, blockwise zero-extended equality is equality of the
logical values, bit for bit. -/
theorem beq_true_iff_testBit {a b : Bitset} (ha : a.Valid) (hb : b.Valid) :
    beq a b = true ↔ ∀ i, Nat.testBit a.val i = Nat.testBit b.val i := by
  rw [beq_true_iff_blocks]
  constructor
  · intro h i
    have hall : ∀ j, a.GetBlock j = b.GetBlock j := by
      intro j
      by_cases hj : j < max a.GetBlockCount b.GetBlockCount
      · exact h j hj
      · push_neg at hj
        rw [GetBlock_eq_zero_of_le (le_trans (le_max_left _ _) hj),
          GetBlock_eq_zero_of_le (le_trans (le_max_right _ _) hj)]
    rw [← Test_eq_testBit_val (wf_of_valid ha), ← Test_eq_testBit_val (wf_of_valid hb),
      Test, Test, hall]
  · intro h j _
    apply Nat.eq_of_testBit_eq
    intro m
    by_cases hm : m < bitsPerBlock
    · rw [Test_block_bit a j m hm, Test_block_bit b j m hm,
        Test_eq_testBit_val (wf_of_valid ha), Test_eq_testBit_val (wf_of_valid hb), h]
    · rw [Nat.testBit_lt_two_pow (lt_of_lt_of_le (GetBlock_lt (wf_of_valid ha) j)
          (pow_le_pow_right (by decide) (Nat.le_of_not_lt hm))),
        Nat.testBit_lt_two_pow (lt_of_lt_of_le (GetBlock_lt (wf_of_valid hb) j)
          (pow_le_pow_right (by decide) (Nat.le_of_not_lt hm)))]

/-- C9: `operator==` compares logical content independently of size — two
bitsets of different sizes compare equal exactly when they agree on every bit
index below each one's own size and every bit of the longer one beyond the
shorter one's size is zero. -/
theorem beq_content_equality (a b : Bitset) (ha : a.Valid) (hb : b.Valid)
    (hsize : a.GetSize ≠ b.GetSize) :
    beq a b = true ↔
      ((∀ i < min a.GetSize b.GetSize, a.Test i = b.Test i) ∧
       ∀ i, min a.GetSize b.GetSize ≤ i →
         a.UnboundedTest i = false ∧ b.UnboundedTest i = false) := by
  rw [beq_true_iff_testBit ha hb]
  constructor
  · intro h
    refine ⟨fun i hi => ?_, fun i hi => ?_⟩
    · rw [Test_eq_testBit_val (wf_of_valid ha), Test_eq_testBit_val (wf_of_valid hb), h]
    · rcases Nat.le_total a.GetSize b.GetSize with hab | hba
      · have hmin : min a.GetSize b.GetSize = a.GetSize := min_eq_left hab
        have hfa : Nat.testBit a.val i = false :=
          testBit_val_eq_false_of_le ha (by rw [hmin] at hi; exact hi)
        refine ⟨?_, ?_⟩
        · rw [UnboundedTest_eq_testBit_val ha]; exact hfa
        · rw [UnboundedTest_eq_testBit_val hb, ← h]; exact hfa
      · have hmin : min a.GetSize b.GetSize = b.GetSize := min_eq_right hba
        have hfb : Nat.testBit b.val i = false :=
          testBit_val_eq_false_of_le hb (by rw [hmin] at hi; exact hi)
        refine ⟨?_, ?_⟩
        · rw [UnboundedTest_eq_testBit_val ha, h]; exact hfb
        · rw [UnboundedTest_eq_testBit_val hb]; exact hfb
  · intro hpair i
    by_cases hi : i < min a.GetSize b.GetSize
    · rw [← Test_eq_testBit_val (wf_of_valid ha), ← Test_eq_testBit_val (wf_of_valid hb)]
      exact hpair.1 i hi
    · push_neg at hi
      obtain ⟨hfa, hfb⟩ := hpair.2 i hi
      rw [UnboundedTest_eq_testBit_val ha] at hfa
      rw [UnboundedTest_eq_testBit_val hb] at hfb
      rw [hfa, hfb]

/-- Witness for C9 with bitsets of sizes 3 and 40 holding the same value. -/
theorem beq_content_equality_witness :
    beq (ofNat 3 5) (ofNat 40 5) = true ↔
      ((∀ i < min (ofNat 3 5).GetSize (ofNat 40 5).GetSize,
          (ofNat 3 5).Test i = (ofNat 40 5).Test i) ∧
       ∀ i, min (ofNat 3 5).GetSize (ofNat 40 5).GetSize ≤ i →
         (ofNat 3 5).UnboundedTest i = false ∧ (ofNat 40 5).UnboundedTest i = false) :=
  beq_content_equality (ofNat 3 5) (ofNat 40 5) (by decide) (by decide) (by decide)

end Bitset

/-- C10: the leaf primitive is 1-based — `FindFirstBit(0) = 0` and, for every
unsigned width and every in-range bit position `i`, `FindFirstBit(1 << i) = i + 1`;
a caller wanting a 0-based index must subtract one from a nonzero result. -/
theorem FindFirstBit_one_based :
    FindFirstBit 0 = 0 ∧
    ∀ w, (w = 8 ∨ w = 16 ∨ w = 32 ∨ w = 64) → ∀ i, i < w →
      FindFirstBit (2 ^ i) = i + 1 :=
  ⟨rfl, fun _ _ i _ => Bitset.FindFirstBit_two_pow i⟩

/-- Witness for C10 at width 8, bit 7. -/
theorem FindFirstBit_one_based_witness : FindFirstBit (2 ^ 7) = 7 + 1 :=
  FindFirstBit_one_based.2 8 (Or.inl rfl) 7 (by decide)

end Nz
